import Mathlib

/-!
# Verification of the music-bingo start-time detection core

Shallow embedding of the analysis pipeline shared by
`src/scripts/detect_start_times.py` (`detect_best_start_time`) and
`src/scripts/trim_clips.py` (`find_chorus_start`).

Modelling conventions:
* numpy float arrays become `List ℚ` (exact rational arithmetic stands in for
  IEEE floats; every constant in the scripts is a decimal literal, so the
  algebraic structure is preserved exactly);
* the external decode / feature-extraction collaborator (librosa) is an input:
  a successfully loaded file is a record holding the reported duration and the
  extracted feature series, and an exception anywhere in the `try` block is
  modelled with `Except Unit`;
* Python `int(x)` is truncation toward zero, Python 3 `round` is
  round-half-to-even; both are modelled explicitly below.
-/

namespace MusicBingo

/-- The epsilon `1e-10` used by both scripts. -/
def eps : ℚ := 1 / 10 ^ 10

/-- numpy `arr.min()` on a nonempty array; `0` is a junk value for `[]`
(numpy raises there, and the pipelines route that situation to the exception
handler before the value could be used). -/
def listMin : List ℚ → ℚ
  | [] => 0
  | x :: t => t.foldl min x

/-- numpy `arr.max()`, same conventions as `listMin`. -/
def listMax : List ℚ → ℚ
  | [] => 0
  | x :: t => t.foldl max x

/-- Function `normalize` from `detect_start_times.py` (lines 68-72):
zeros when `max - min < 1e-10`, else `(v - min) / (max - min)`. -/
def normalize (xs : List ℚ) : List ℚ :=
  let mn := listMin xs
  let mx := listMax xs
  if mx - mn < eps then xs.map (fun _ => 0)
  else xs.map (fun v => (v - mn) / (mx - mn))

/-- The inline normalization of `trim_clips.py` (lines 57-60):
`(v - min) / (max - min + 1e-10)`, no degenerate branch. -/
def normalizeTrim (xs : List ℚ) : List ℚ :=
  let mn := listMin xs
  let mx := listMax xs
  xs.map (fun v => (v - mn) / (mx - mn + eps))

/-- Python `int()` on a real value: truncation toward zero
(`Int.tdiv` of the reduced numerator by the positive denominator). -/
def pyInt (q : ℚ) : ℤ :=
  q.num.tdiv q.den

/-- Python 3 `round` to an integer: round half to even.
(`Rat.floor` is used instead of `⌊·⌋` so the definition evaluates by kernel
reduction; they are equal by `Rat.floor_def'`.) -/
def pyRound (q : ℚ) : ℤ :=
  let f := Rat.floor q
  if q - f < 1 / 2 then f
  else if (1 : ℚ) / 2 < q - f then f + 1
  else if f % 2 = 0 then f else f + 1

/-- Analysis sample rate: both scripts load with `sr=22050`. -/
def sr : ℚ := 22050

/-- Hop length: both scripts use `hop_length = 512`. -/
def hop : ℚ := 512

/-- Window length `window_frames = int(target_duration * sr / hop_length)`
(detect line 92, trim line 70). -/
def windowFrames (target : ℚ) : ℕ :=
  (pyInt (target * sr / hop)).toNat

/-- Head guard `start_frame = int(5 * sr / hop_length)` in `detect_start_times.py`
(line 95); evaluates to 215. -/
def guardD : ℕ :=
  (pyInt (5 * sr / hop)).toNat

/-- Guard `int(10 * sr / hop_length)` of `trim_clips.py` (lines 75-76);
evaluates to 430. -/
def guardT : ℕ :=
  (pyInt (10 * sr / hop)).toNat

/-- Slice mean `np.mean(xs[i : i + w])`: arithmetic mean of the slice
(`ℚ` division by zero yields 0 for the empty slice, which the scripts never
take a mean of on a reachable path). -/
def sliceMean (xs : List ℚ) (i w : ℕ) : ℚ :=
  let s := (xs.drop i).take w
  s.sum / s.length

/-- One iteration of the scan loop: `if window_score > best_score: update`
(detect lines 105-109, trim lines 82-86). -/
def scanStep (xs : List ℚ) (w : ℕ) (best : ℕ × ℚ) (i : ℕ) : ℕ × ℚ :=
  if best.2 < sliceMean xs i w then (i, sliceMean xs i w) else best

/-- The full scan `for i in range(startF, endF)` starting from
`(best_start, best_score) = (init, 0)`; `init` is `start_frame` in
`detect_start_times.py` and `0` in `trim_clips.py`. -/
def searchScan (xs : List ℚ) (w startF endF init : ℕ) : ℕ × ℚ :=
  (List.range' startF (endF - startF)).foldl (scanStep xs w) (init, 0)

/-- Conversion `librosa.frames_to_time(i, sr, hop_length) = i * hop_length / sr`. -/
def frameTime (i : ℕ) : ℚ := i * hop / sr

/-- Mean `np.mean(xs)` over the whole series. -/
def listMean (xs : List ℚ) : ℚ := xs.sum / xs.length

/-- Smoothing `np.convolve(xs, np.ones(10)/10, mode='same')` (detect lines
83-84).  numpy's full convolution of an `N`-element series with the 10-frame
kernel has length `N + 10 - 1`, and mode `'same'` returns the centered slice
of length `max(10, N)` starting at offset `(min(10, N) - 1) // 2` (when the
kernel is the longer array numpy swaps the operands, hence max/min).  So
entry `i` of the result is full-convolution entry `k = i + (min(10, N) - 1) / 2`,
and `xs[j]` contributes with weight `1/10` exactly when `0 ≤ k - j ≤ 9`,
i.e. `j ≤ k ∧ k ≤ j + 9`.  Out-of-range contributions are zero: numpy
zero-pads, it does not shorten the window. -/
def smooth10 (xs : List ℚ) : List ℚ :=
  (List.range (max 10 xs.length)).map (fun i =>
    (∑ j ∈ Finset.range xs.length,
      if j ≤ i + (min 10 xs.length - 1) / 2 ∧ i + (min 10 xs.length - 1) / 2 ≤ j + 9
        then xs.getD j 0 else 0) / 10)

/-- Modelled from the spec (claim C9's wording, not the source): a centered
moving average over the same frame window `[i-5, i+4]` where edge frames are
averaged over the available shorter window (divide by the overlap count, no
zero padding). -/
def smoothSpecEdges (xs : List ℚ) : List ℚ :=
  (List.range xs.length).map (fun i =>
    let s := (xs.drop (i - 5)).take (i + 5 - (i - 5))
    s.sum / s.length)

/-- Combination `combined = 0.4 * rms_norm + 0.3 * sc_norm + 0.3 * onset_norm`
(detect line 80), pointwise on already aligned series. -/
def combine3 (a b c : List ℚ) : List ℚ :=
  List.zipWith (fun x y => x + y)
    (List.zipWith (fun x y => (2 / 5) * x + (3 / 10) * y) a b)
    (c.map (fun z => (3 / 10) * z))

/-- Combination `combined = 0.6 * rms_norm + 0.4 * sc_norm` (trim line 63). -/
def combine2 (a b : List ℚ) : List ℚ :=
  List.zipWith (fun x y => (3 / 5) * x + (2 / 5) * y) a b

/-- A successfully decoded file as `detect_best_start_time` sees it: the
duration librosa reports, then the three feature series — or an exception
(`.error`) raised during feature computation. -/
structure LoadedDetect where
  duration : ℚ
  feats : Except Unit (List ℚ × List ℚ × List ℚ)

/-- Function `detect_best_start_time(audio_path, target_duration)` from
`detect_start_times.py` lines 36-124.  The outer `Except` models
`librosa.load` itself raising (the whole `try` block then falls to the
handler, line 122-124, which returns `(30.0, 0.3)`). -/
def detect_best_start_time (inp : Except Unit LoadedDetect) (target : ℚ) :
    ℚ × ℚ :=
  match inp with
  | .error _ => (30, 3 / 10)
  | .ok a =>
    if a.duration ≤ target then (0, 1 / 2)
    else
      match a.feats with
      | .error _ => (30, 3 / 10)
      | .ok (rms, sc, onset) =>
        let m := min rms.length (min sc.length onset.length)
        -- numpy `.min()` raises on an empty array, caught by the handler
        if m = 0 then (30, 3 / 10)
        else
          let rmsN := normalize (rms.take m)
          let scN := normalize (sc.take m)
          let onN := normalize (onset.take m)
          let combined := combine3 rmsN scN onN
          let cs := smooth10 combined
          let w := windowFrames target
          let startF := guardD
          let endF := cs.length - w
          if endF ≤ startF then (max 0 ((a.duration - target) / 4), 1 / 2)
          else
            let best := searchScan cs w startF endF startF
            let st := if best.1 < cs.length then frameTime best.1 else 0
            (((pyRound st : ℤ) : ℚ), min 1 (best.2 / (listMean cs + 1 / 100)))

/-- A successfully decoded file as `find_chorus_start` sees it. -/
structure LoadedTrim where
  duration : ℚ
  feats : Except Unit (List ℚ × List ℚ)

/-- The exception handler of `find_chorus_start` (trim lines 93-101): it
retries duration via `AudioSegment.from_file`; `fbDuration` is `some d` when
that second decode succeeds and `none` when it raises too. -/
def trimFallback (fbDuration : Option ℚ) (target : ℚ) : ℚ × ℚ :=
  match fbDuration with
  | some d => (max 0 ((d - target) / 3), 3 / 10)
  | none => (30, 1 / 10)

/-- Function `find_chorus_start(audio_path, clip_duration)` from `trim_clips.py`
lines 34-101.  The empty/mismatched-length guard models numpy raising inside
the `try` block (`.min()` of an empty array, or broadcasting two different
shapes), which lands in the same handler; librosa always produces two
equal-length nonempty series for one signal, so that guard is never taken on
real extractor output. -/
def find_chorus_start (inp : Except Unit LoadedTrim) (fbDuration : Option ℚ)
    (target : ℚ) : ℚ × ℚ :=
  match inp with
  | .error _ => trimFallback fbDuration target
  | .ok a =>
    if a.duration ≤ target then (0, 1 / 2)
    else
      match a.feats with
      | .error _ => trimFallback fbDuration target
      | .ok (rms, sc) =>
        if rms.length = 0 ∨ rms.length ≠ sc.length then
          trimFallback fbDuration target
        else
          let rmsN := normalizeTrim rms
          let scN := normalizeTrim sc
          let combined := combine2 rmsN scN
          let w := windowFrames target
          let startF := guardT
          let endF := combined.length - w - guardT
          if endF ≤ startF then (max 0 ((a.duration - target) / 3), 1 / 2)
          else
            let best := searchScan combined w startF endF 0
            let st := if best.1 < combined.length then frameTime best.1 else 0
            (st, min 1 (best.2 * (3 / 2)))

-- Batteries seals rational arithmetic against definitional unfolding; open it
-- back up so `decide` can evaluate the pipelines on concrete inputs.
unseal Rat.add Rat.mul Rat.inv Rat.sub Rat.ofScientific

set_option maxRecDepth 16000

-- sanity checks (guard constants and window length match the Python values)
example : guardD = 215 := by decide
example : guardT = 430 := by decide
example : windowFrames 45 = 1937 := by decide

/-! ## Generic facts about the scan loop -/

theorem scanStep_snd_le (xs : List ℚ) (w : ℕ) (acc : ℕ × ℚ) (i : ℕ) :
    acc.2 ≤ (scanStep xs w acc i).2 := by
  by_cases h : acc.2 < sliceMean xs i w
  · simpa [scanStep, h] using h.le
  · simp [scanStep, h]

theorem scanStep_mean_le (xs : List ℚ) (w : ℕ) (acc : ℕ × ℚ) (i : ℕ) :
    sliceMean xs i w ≤ (scanStep xs w acc i).2 := by
  by_cases h : acc.2 < sliceMean xs i w
  · simp [scanStep, h]
  · simpa [scanStep, h] using not_lt.mp h

/-- The running best score never decreases over the loop. -/
theorem foldl_scanStep_le (xs : List ℚ) (w : ℕ) (l : List ℕ) :
    ∀ acc : ℕ × ℚ, acc.2 ≤ (l.foldl (scanStep xs w) acc).2 := by
  induction l with
  | nil => intro acc; simp
  | cons j t ih =>
    intro acc
    exact (scanStep_snd_le xs w acc j).trans (by simpa using ih (scanStep xs w acc j))

/-- Every index visited by the loop has window mean at most the final score. -/
theorem foldl_scanStep_dominates (xs : List ℚ) (w : ℕ) (l : List ℕ) :
    ∀ acc : ℕ × ℚ, ∀ i ∈ l, sliceMean xs i w ≤ (l.foldl (scanStep xs w) acc).2 := by
  induction l with
  | nil => simp
  | cons j t ih =>
    intro acc i hi
    simp only [List.foldl_cons]
    rcases List.mem_cons.mp hi with rfl | hit
    · exact (scanStep_mean_le xs w acc i).trans (foldl_scanStep_le xs w t _)
    · exact ih (scanStep xs w acc j) i hit

/-- The loop either leaves the accumulator untouched or returns a visited
index whose window mean is the final score. -/
theorem foldl_scanStep_origin (xs : List ℚ) (w : ℕ) (l : List ℕ) :
    ∀ acc : ℕ × ℚ,
      l.foldl (scanStep xs w) acc = acc ∨
        ((l.foldl (scanStep xs w) acc).1 ∈ l ∧
          sliceMean xs (l.foldl (scanStep xs w) acc).1 w
            = (l.foldl (scanStep xs w) acc).2) := by
  induction l with
  | nil => intro acc; left; rfl
  | cons j t ih =>
    intro acc
    simp only [List.foldl_cons]
    rcases ih (scanStep xs w acc j) with h | ⟨h1, h2⟩
    · by_cases hj : acc.2 < sliceMean xs j w
      · right
        rw [h]
        constructor
        · simp [scanStep, hj]
        · simp [scanStep, hj]
      · left
        rw [h]
        simp [scanStep, hj]
    · right
      exact ⟨List.mem_cons_of_mem _ h1, h2⟩

/-- If no visited index strictly beats the accumulator's score, the loop is a
no-op (the strict `>` comparison never fires). -/
theorem foldl_scanStep_nochange (xs : List ℚ) (w : ℕ) (l : List ℕ) :
    ∀ acc : ℕ × ℚ, (∀ i ∈ l, sliceMean xs i w ≤ acc.2) →
      l.foldl (scanStep xs w) acc = acc := by
  induction l with
  | nil => intro acc _; rfl
  | cons j t ih =>
    intro acc h
    simp only [List.foldl_cons]
    have hj : ¬ acc.2 < sliceMean xs j w := not_lt.mpr (h j (List.mem_cons_self ..))
    rw [show scanStep xs w acc j = acc by simp [scanStep, hj]]
    exact ih acc fun i hi => h i (List.mem_cons_of_mem _ hi)

/-- Earliest-maximizer property over `range'`: any visited index strictly
below the final chosen index scores strictly below the final score; the
hypothesis on `acc` covers indices below the initial index. -/
theorem foldl_scanStep_earliest (xs : List ℚ) (w s : ℕ) (acc : ℕ × ℚ)
    (hacc : ∀ k, s ≤ k → k < acc.1 → sliceMean xs k w < acc.2) :
    ∀ n, ∀ k, s ≤ k → k < s + n →
      k < ((List.range' s n).foldl (scanStep xs w) acc).1 →
      sliceMean xs k w < ((List.range' s n).foldl (scanStep xs w) acc).2 := by
  intro n
  induction n with
  | zero => intro k hk1 hk2 _; omega
  | succ n ih =>
    have hsplit : List.range' s (n + 1) = List.range' s n ++ [s + n] := by
      have h0 : List.range' s (n + 1) 1 = List.range' s n 1 ++ [s + 1 * n] :=
        List.range'_concat s n
      simpa using h0
    intro k hk1 hk2 hk3
    rw [hsplit, List.foldl_append, List.foldl_cons, List.foldl_nil] at hk3 ⊢
    by_cases hup :
        ((List.range' s n).foldl (scanStep xs w) acc).2 < sliceMean xs (s + n) w
    · rw [show scanStep xs w ((List.range' s n).foldl (scanStep xs w) acc) (s + n)
            = (s + n, sliceMean xs (s + n) w) by simp [scanStep, hup]] at hk3 ⊢
      have hk : k < s + n := by simpa using hk3
      exact lt_of_le_of_lt
        (foldl_scanStep_dominates xs w _ acc k (List.mem_range'_1.mpr ⟨hk1, hk⟩))
        (by simpa using hup)
    · rw [show scanStep xs w ((List.range' s n).foldl (scanStep xs w) acc) (s + n)
            = (List.range' s n).foldl (scanStep xs w) acc by simp [scanStep, hup]]
        at hk3 ⊢
      rcases Nat.lt_or_ge k (s + n) with hk | hk
      · exact ih k hk1 hk hk3
      · have hk' : k = s + n := by omega
        subst hk'
        rcases foldl_scanStep_origin xs w (List.range' s n) acc with h | ⟨h1, _⟩
        · rw [h] at hk3 ⊢
          exact hacc _ hk1 hk3
        · have := (List.mem_range'_1.mp h1).2
          omega

/-! ## Facts about `listMin` / `listMax` (numpy `.min()` / `.max()`) -/

theorem foldl_min_le_init (t : List ℚ) : ∀ a : ℚ, t.foldl min a ≤ a := by
  induction t with
  | nil => intro a; simp
  | cons x u ih =>
    intro a
    exact (ih (min a x)).trans (min_le_left a x)

theorem foldl_min_le_mem (t : List ℚ) : ∀ a : ℚ, ∀ v ∈ t, t.foldl min a ≤ v := by
  induction t with
  | nil => simp
  | cons x u ih =>
    intro a v hv
    rcases List.mem_cons.mp hv with rfl | hvu
    · exact (foldl_min_le_init u (min a v)).trans (min_le_right a v)
    · exact ih (min a x) v hvu

theorem foldl_min_choice (t : List ℚ) : ∀ a : ℚ, t.foldl min a = a ∨ t.foldl min a ∈ t := by
  induction t with
  | nil => intro a; left; rfl
  | cons x u ih =>
    intro a
    simp only [List.foldl_cons]
    rcases ih (min a x) with h | h
    · rcases min_choice a x with hax | hax
      · left; rw [h, hax]
      · right; rw [h, hax]; exact List.mem_cons_self ..
    · right; exact List.mem_cons_of_mem _ h

theorem listMin_le (xs : List ℚ) : ∀ v ∈ xs, listMin xs ≤ v := by
  cases xs with
  | nil => simp
  | cons x t =>
    intro v hv
    rcases List.mem_cons.mp hv with rfl | hvt
    · exact foldl_min_le_init t v
    · exact foldl_min_le_mem t x v hvt

theorem listMin_mem (xs : List ℚ) (h : xs ≠ []) : listMin xs ∈ xs := by
  cases xs with
  | nil => exact absurd rfl h
  | cons x t =>
    rcases foldl_min_choice t x with h1 | h1
    · rw [listMin, h1]; exact List.mem_cons_self ..
    · exact List.mem_cons_of_mem _ (by rwa [listMin])

theorem foldl_max_init_le (t : List ℚ) : ∀ a : ℚ, a ≤ t.foldl max a := by
  induction t with
  | nil => intro a; simp
  | cons x u ih =>
    intro a
    exact (le_max_left a x).trans (ih (max a x))

theorem foldl_max_mem_le (t : List ℚ) : ∀ a : ℚ, ∀ v ∈ t, v ≤ t.foldl max a := by
  induction t with
  | nil => simp
  | cons x u ih =>
    intro a v hv
    rcases List.mem_cons.mp hv with rfl | hvu
    · exact (le_max_right a v).trans (foldl_max_init_le u (max a v))
    · exact ih (max a x) v hvu

theorem foldl_max_choice (t : List ℚ) : ∀ a : ℚ, t.foldl max a = a ∨ t.foldl max a ∈ t := by
  induction t with
  | nil => intro a; left; rfl
  | cons x u ih =>
    intro a
    simp only [List.foldl_cons]
    rcases ih (max a x) with h | h
    · rcases max_choice a x with hax | hax
      · left; rw [h, hax]
      · right; rw [h, hax]; exact List.mem_cons_self ..
    · right; exact List.mem_cons_of_mem _ h

theorem le_listMax (xs : List ℚ) : ∀ v ∈ xs, v ≤ listMax xs := by
  cases xs with
  | nil => simp
  | cons x t =>
    intro v hv
    rcases List.mem_cons.mp hv with rfl | hvt
    · exact foldl_max_init_le t v
    · exact foldl_max_mem_le t x v hvt

theorem listMax_mem (xs : List ℚ) (h : xs ≠ []) : listMax xs ∈ xs := by
  cases xs with
  | nil => exact absurd rfl h
  | cons x t =>
    rcases foldl_max_choice t x with h1 | h1
    · rw [listMax, h1]; exact List.mem_cons_self ..
    · exact List.mem_cons_of_mem _ (by rwa [listMax])

theorem listMin_le_listMax (xs : List ℚ) (h : xs ≠ []) : listMin xs ≤ listMax xs :=
  (listMin_le xs _ (listMax_mem xs h)).trans (le_refl _)

/-! ## Bounds of the two normalizations -/

/-- The detect-variant normalizer outputs values in `[0, 1]`. -/
theorem normalize_mem_bounds (xs : List ℚ) : ∀ v ∈ normalize xs, 0 ≤ v ∧ v ≤ 1 := by
  intro v hv
  unfold normalize at hv
  by_cases hc : listMax xs - listMin xs < eps
  · rw [if_pos hc] at hv
    rcases List.mem_map.mp hv with ⟨a, _, rfl⟩
    norm_num
  · rw [if_neg hc] at hv
    rcases List.mem_map.mp hv with ⟨a, ha, rfl⟩
    have hre : eps ≤ listMax xs - listMin xs := not_lt.mp hc
    have hpos : 0 < listMax xs - listMin xs :=
      lt_of_lt_of_le (by norm_num [eps]) hre
    constructor
    · exact div_nonneg (sub_nonneg.mpr (listMin_le xs a ha)) hpos.le
    · rw [div_le_one hpos]
      exact sub_le_sub_right (le_listMax xs a ha) _

/-- The trim-variant normalizer outputs values in `[0, 1)` — the maximum is
strictly below 1 because of the `+ 1e-10` in the denominator. -/
theorem normalizeTrim_mem_bounds (xs : List ℚ) :
    ∀ v ∈ normalizeTrim xs, 0 ≤ v ∧ v < 1 := by
  intro v hv
  unfold normalizeTrim at hv
  rcases List.mem_map.mp hv with ⟨a, ha, rfl⟩
  have hne : xs ≠ [] := by rintro rfl; simp at ha
  have hmm : listMin xs ≤ listMax xs := listMin_le_listMax xs hne
  have hpos : 0 < listMax xs - listMin xs + eps := by
    have : (0 : ℚ) < eps := by norm_num [eps]
    linarith
  constructor
  · exact div_nonneg (sub_nonneg.mpr (listMin_le xs a ha)) hpos.le
  · rw [div_lt_one hpos]
    have : a ≤ listMax xs := le_listMax xs a ha
    have : (0 : ℚ) < eps := by norm_num [eps]
    linarith

/-! ## Nonnegativity propagation through the pipeline -/

theorem zipWith_nonneg {f : ℚ → ℚ → ℚ}
    (hf : ∀ x y, 0 ≤ x → 0 ≤ y → 0 ≤ f x y) :
    ∀ (a b : List ℚ), (∀ x ∈ a, 0 ≤ x) → (∀ y ∈ b, 0 ≤ y) →
      ∀ v ∈ List.zipWith f a b, 0 ≤ v := by
  intro a
  induction a with
  | nil => simp
  | cons x t ih =>
    intro b hx hy v hv
    cases b with
    | nil => simp at hv
    | cons y u =>
      simp only [List.zipWith_cons_cons, List.mem_cons] at hv
      rcases hv with rfl | hv
      · exact hf x y (hx x (List.mem_cons_self ..)) (hy y (List.mem_cons_self ..))
      · exact ih u (fun z hz => hx z (List.mem_cons_of_mem _ hz))
          (fun z hz => hy z (List.mem_cons_of_mem _ hz)) v hv

theorem combine3_nonneg (a b c : List ℚ)
    (ha : ∀ x ∈ a, 0 ≤ x) (hb : ∀ x ∈ b, 0 ≤ x) (hc : ∀ x ∈ c, 0 ≤ x) :
    ∀ v ∈ combine3 a b c, 0 ≤ v := by
  unfold combine3
  refine zipWith_nonneg (fun x y hx hy => by linarith) _ _ ?_ ?_
  · exact zipWith_nonneg (fun x y hx hy => by linarith) a b ha hb
  · intro y hy
    rcases List.mem_map.mp hy with ⟨z, hz, rfl⟩
    have := hc z hz
    linarith

theorem combine2_nonneg (a b : List ℚ)
    (ha : ∀ x ∈ a, 0 ≤ x) (hb : ∀ x ∈ b, 0 ≤ x) :
    ∀ v ∈ combine2 a b, 0 ≤ v :=
  zipWith_nonneg (fun x y hx hy => by linarith) a b ha hb

theorem getD_nonneg (l : List ℚ) (hl : ∀ v ∈ l, 0 ≤ v) (j : ℕ) :
    0 ≤ l.getD j 0 := by
  by_cases hj : j < l.length
  · rw [List.getD_eq_getElem l 0 hj]
    exact hl _ (List.getElem_mem hj)
  · rw [List.getD_eq_default l 0 (le_of_not_lt hj)]

theorem smooth10_nonneg (xs : List ℚ) (hxs : ∀ v ∈ xs, 0 ≤ v) :
    ∀ v ∈ smooth10 xs, 0 ≤ v := by
  intro v hv
  unfold smooth10 at hv
  rcases List.mem_map.mp hv with ⟨i, _, rfl⟩
  refine div_nonneg (Finset.sum_nonneg fun j _ => ?_) (by norm_num)
  split_ifs
  · exact getD_nonneg xs hxs j
  · exact le_refl 0

theorem sliceMean_nonneg (xs : List ℚ) (hxs : ∀ v ∈ xs, 0 ≤ v) (i w : ℕ) :
    0 ≤ sliceMean xs i w := by
  unfold sliceMean
  refine div_nonneg (List.sum_nonneg fun v hv => ?_) (by positivity)
  exact hxs v (List.mem_of_mem_drop (List.mem_of_mem_take hv))

theorem listMean_nonneg (xs : List ℚ) (hxs : ∀ v ∈ xs, 0 ≤ v) :
    0 ≤ listMean xs := by
  unfold listMean
  exact div_nonneg (List.sum_nonneg hxs) (by positivity)

theorem searchScan_snd_nonneg (xs : List ℚ) (w startF endF init : ℕ) :
    0 ≤ (searchScan xs w startF endF init).2 := by
  simpa using foldl_scanStep_le xs w (List.range' startF (endF - startF)) (init, 0)

theorem smooth10_length (xs : List ℚ) :
    (smooth10 xs).length = max 10 xs.length := by
  simp [smooth10]

theorem normalize_length (xs : List ℚ) : (normalize xs).length = xs.length := by
  unfold normalize
  by_cases h : listMax xs - listMin xs < eps <;> simp [h]

theorem normalizeTrim_length (xs : List ℚ) :
    (normalizeTrim xs).length = xs.length := by
  simp [normalizeTrim]

theorem combine3_length (a b c : List ℚ) :
    (combine3 a b c).length = min (min a.length b.length) c.length := by
  simp [combine3]

theorem combine2_length (a b : List ℚ) :
    (combine2 a b).length = min a.length b.length := by
  simp [combine2]

/-! ## Claim theorems -/

/-- Claim C5 (confirmed). Short-signal fallback: for every loaded signal whose
duration is at most the target duration, both pipeline variants return exactly
`(start = 0.0, confidence = 0.5)`.  The feature field is universally
quantified (it may even be the extraction-failure marker), which captures that
the result is produced before feature extraction or the window search can
influence it. -/
theorem C5_short_signal_fallback (a : LoadedDetect) (b : LoadedTrim)
    (fb : Option ℚ) (t : ℚ) (ha : a.duration ≤ t) (hb : b.duration ≤ t) :
    detect_best_start_time (.ok a) t = (0, 1 / 2) ∧
      find_chorus_start (.ok b) fb t = (0, 1 / 2) := by
  constructor
  · simp [detect_best_start_time, ha]
  · simp [find_chorus_start, hb]

/-- Witness for C5 at a concrete input: duration 1s, target 2s. -/
theorem C5_short_signal_fallback_witness :
    ((1 : ℚ) ≤ 2) ∧
      (detect_best_start_time (.ok ⟨1, .error ()⟩) 2 = (0, 1 / 2) ∧
        find_chorus_start (.ok ⟨1, .error ()⟩) none 2 = (0, 1 / 2)) :=
  ⟨by norm_num,
    C5_short_signal_fallback ⟨1, .error ()⟩ ⟨1, .error ()⟩ none 2
      (by norm_num) (by norm_num)⟩

/-- Claim C3 counterexample. The claim says the window length is
`round(target_duration * sample_rate / hop_length)`.  At the default
configuration (`target = 45`, `sr = 22050`, `hop = 512`) the quotient is
`1937.988…`: rounding to nearest gives 1938, but the code computes
`int(...)`, which truncates to 1937. -/
theorem C3_window_length_counterexample :
    windowFrames 45 = 1937 ∧ round ((45 : ℚ) * sr / hop) = 1938 ∧
      (1937 : ℤ) ≠ 1938 := by
  refine ⟨by decide, ?_, by decide⟩
  rw [round_eq]
  norm_num [sr, hop, Rat.floor_def]

/-- Claim C3 (corrected). The window length in frames actually used by both
variants is `int(target_duration * sample_rate / hop_length)` — truncation
toward zero, which for the nonnegative targets accepted by the tools is the
floor, not rounding to nearest. -/
theorem C3_window_length_amended (t : ℚ) (ht : 0 ≤ t) :
    windowFrames t = (⌊t * sr / hop⌋).toNat := by
  unfold windowFrames pyInt
  have hq : (0 : ℚ) ≤ t * sr / hop := by
    have h1 : (0 : ℚ) ≤ sr := by norm_num [sr]
    have h2 : (0 : ℚ) ≤ hop := by norm_num [hop]
    positivity
  rw [Rat.floor_def]
  rw [Int.tdiv_eq_ediv (Rat.num_nonneg.mpr hq) (Int.natCast_nonneg _)]

/-- Witness for C3's amended statement at the default target of 45 seconds. -/
theorem C3_window_length_amended_witness :
    (0 : ℚ) ≤ 45 ∧ windowFrames 45 = (⌊(45 : ℚ) * sr / hop⌋).toNat :=
  ⟨by norm_num, C3_window_length_amended 45 (by norm_num)⟩

/-- Claim C1 counterexample. The claim says the scan considers every candidate
in the inclusive range `[guard_head, L - w - g_tail]`, including the upper
endpoint.  Take the detect configuration (`guard_head = guardD = 215`,
`g_tail = 0`, initial index `guardD`), a window of one frame and the series
`0,…,0,1` of length 218.  The inclusive upper endpoint is `218 - 1 - 0 = 217`
and its window mean is 1 — the unique maximum — yet the code's
`range(start_frame, end_frame)` stops at 216, so the scan returns frame 215
with score 0: the endpoint candidate was never considered. -/
theorem C1_search_range_counterexample :
    (searchScan (List.replicate 217 (0 : ℚ) ++ [1]) 1 guardD
        ((List.replicate 217 (0 : ℚ) ++ [1]).length - 1 - 0) guardD) = (215, 0) ∧
      sliceMean (List.replicate 217 (0 : ℚ) ++ [1])
        ((List.replicate 217 (0 : ℚ) ++ [1]).length - 1 - 0) 1 = 1 ∧
      (0 : ℚ) < 1 := by
  refine ⟨by decide, by decide, by norm_num⟩

/-- Claim C1 (corrected). The scan considers exactly the half-open range
`[guard_head, L - w - g_tail)` — the spec's upper endpoint is excluded — and
the chosen start frame lies in that half-open range unless no candidate beats
the initial score 0, in which case it is the initial index (which is
`guard_head` itself in the detect variant, so there the chosen frame always
lies in the half-open range). -/
theorem C1_search_range_amended (xs : List ℚ) (w gHead gTail init : ℕ)
    (hne : gHead < xs.length - w - gTail) :
    (∀ i, gHead ≤ i → i < xs.length - w - gTail →
        sliceMean xs i w ≤ (searchScan xs w gHead (xs.length - w - gTail) init).2) ∧
      ((searchScan xs w gHead (xs.length - w - gTail) init).1 = init ∨
        (gHead ≤ (searchScan xs w gHead (xs.length - w - gTail) init).1 ∧
          (searchScan xs w gHead (xs.length - w - gTail) init).1
            < xs.length - w - gTail)) ∧
      (init = gHead →
        gHead ≤ (searchScan xs w gHead (xs.length - w - gTail) init).1 ∧
          (searchScan xs w gHead (xs.length - w - gTail) init).1
            < xs.length - w - gTail) := by
  have hlen : gHead + (xs.length - w - gTail - gHead) = xs.length - w - gTail := by
    omega
  have horigin :=
    foldl_scanStep_origin xs w
      (List.range' gHead (xs.length - w - gTail - gHead)) (init, 0)
  have hmain :
      (searchScan xs w gHead (xs.length - w - gTail) init).1 = init ∨
        (gHead ≤ (searchScan xs w gHead (xs.length - w - gTail) init).1 ∧
          (searchScan xs w gHead (xs.length - w - gTail) init).1
            < xs.length - w - gTail) := by
    unfold searchScan
    rcases horigin with h | ⟨h1, _⟩
    · left; rw [h]
    · right
      have := List.mem_range'_1.mp h1
      omega
  refine ⟨?_, hmain, ?_⟩
  · intro i hi1 hi2
    unfold searchScan
    exact foldl_scanStep_dominates xs w _ (init, 0) i
      (List.mem_range'_1.mpr ⟨hi1, by omega⟩)
  · intro hinit
    rcases hmain with h | h
    · rw [h, hinit]
      exact ⟨le_refl _, hne⟩
    · exact h

/-- Witness for C1's amended statement on the series `0,1,1`, one-frame
window, no guard bands, initial index 0. -/
theorem C1_search_range_amended_witness :
    (0 < [(0 : ℚ), 1, 1].length - 1 - 0) ∧
      ((∀ i, 0 ≤ i → i < [(0 : ℚ), 1, 1].length - 1 - 0 →
          sliceMean [(0 : ℚ), 1, 1] i 1
            ≤ (searchScan [(0 : ℚ), 1, 1] 1 0 ([(0 : ℚ), 1, 1].length - 1 - 0) 0).2) ∧
        ((searchScan [(0 : ℚ), 1, 1] 1 0 ([(0 : ℚ), 1, 1].length - 1 - 0) 0).1 = 0 ∨
          (0 ≤ (searchScan [(0 : ℚ), 1, 1] 1 0 ([(0 : ℚ), 1, 1].length - 1 - 0) 0).1 ∧
            (searchScan [(0 : ℚ), 1, 1] 1 0 ([(0 : ℚ), 1, 1].length - 1 - 0) 0).1
              < [(0 : ℚ), 1, 1].length - 1 - 0)) ∧
        (0 = 0 →
          0 ≤ (searchScan [(0 : ℚ), 1, 1] 1 0 ([(0 : ℚ), 1, 1].length - 1 - 0) 0).1 ∧
            (searchScan [(0 : ℚ), 1, 1] 1 0 ([(0 : ℚ), 1, 1].length - 1 - 0) 0).1
              < [(0 : ℚ), 1, 1].length - 1 - 0)) :=
  ⟨by decide, C1_search_range_amended [(0 : ℚ), 1, 1] 1 0 0 0 (by decide)⟩

theorem foldl_min_replicate_self (c : ℚ) :
    ∀ n : ℕ, (List.replicate n c).foldl min c = c := by
  intro n
  induction n with
  | zero => rfl
  | succ k ih => simpa [List.replicate_succ, min_self] using ih

theorem foldl_max_replicate_self (c : ℚ) :
    ∀ n : ℕ, (List.replicate n c).foldl max c = c := by
  intro n
  induction n with
  | zero => rfl
  | succ k ih => simpa [List.replicate_succ, max_self] using ih

theorem listMin_replicate (n : ℕ) (c : ℚ) (h : n ≠ 0) :
    listMin (List.replicate n c) = c := by
  cases n with
  | zero => exact absurd rfl h
  | succ k => simpa [List.replicate_succ, listMin] using foldl_min_replicate_self c k

theorem listMax_replicate (n : ℕ) (c : ℚ) (h : n ≠ 0) :
    listMax (List.replicate n c) = c := by
  cases n with
  | zero => exact absurd rfl h
  | succ k => simpa [List.replicate_succ, listMax] using foldl_max_replicate_self c k

/-- A constant series is sent to the all-zero series by the trim-variant
normalization. -/
theorem normalizeTrim_replicate (n : ℕ) (c : ℚ) :
    normalizeTrim (List.replicate n c) = List.replicate n 0 := by
  cases n with
  | zero => rfl
  | succ k =>
    unfold normalizeTrim
    rw [listMin_replicate _ c (Nat.succ_ne_zero k), listMax_replicate _ c (Nat.succ_ne_zero k),
      List.map_replicate]
    norm_num

theorem combine2_replicate_zero :
    ∀ n : ℕ, combine2 (List.replicate n (0 : ℚ)) (List.replicate n 0)
      = List.replicate n 0 := by
  intro n
  induction n with
  | zero => rfl
  | succ k ih =>
    simp only [List.replicate_succ, combine2, List.zipWith_cons_cons] at ih ⊢
    rw [ih]
    norm_num

theorem sliceMean_replicate_zero (n i w : ℕ) :
    sliceMean (List.replicate n (0 : ℚ)) i w = 0 := by
  simp [sliceMean, List.drop_replicate, List.take_replicate, List.sum_replicate]

/-- Claim C2 counterexample. A file of silence longer than the target: both
feature series are constant, so after normalization every candidate window of
the trim variant scores exactly 0 — all candidates are equal-scoring.  The
claim requires the earliest-index candidate (frame `guardT = 430`) to be
chosen, but `find_chorus_start` initializes `best_start = 0` and the strict
`>` never fires, so the scan returns frame 0 — outside the search range, with
start time 0 rather than `frameTime 430 ≈ 9.98 s`.  (Series length 866,
target 0.1 s ⇒ window 4 frames, scanned range `[430, 432)` non-empty.) -/
theorem C2_tiebreak_counterexample :
    searchScan (List.replicate 866 (0 : ℚ)) 4 guardT (866 - 4 - guardT) 0 = (0, 0) ∧
      0 < guardT ∧ guardT < 866 - 4 - guardT ∧
      find_chorus_start
          (.ok ⟨21, .ok (List.replicate 866 (0 : ℚ), List.replicate 866 (0 : ℚ))⟩)
          none (1 / 10)
        = (0, 0) ∧
      frameTime 430 ≠ 0 := by
  have hg : guardT = 430 := by decide
  have hscan :
      searchScan (List.replicate 866 (0 : ℚ)) 4 guardT (866 - 4 - guardT) 0 = (0, 0) := by
    unfold searchScan
    refine foldl_scanStep_nochange _ _ _ (0, 0) fun i _ => ?_
    rw [sliceMean_replicate_zero]
  refine ⟨hscan, by omega, by rw [hg]; omega, ?_, by norm_num [frameTime, sr, hop]⟩
  have hw : windowFrames (1 / 10) = 4 := by decide
  have h21 : ¬ (21 : ℚ) ≤ 1 / 10 := by norm_num
  simp only [find_chorus_start, h21, if_false, normalizeTrim_replicate,
    combine2_replicate_zero, List.length_replicate, hw]
  rw [if_neg (by omega : ¬ ((866 : ℕ) = 0 ∨ (866 : ℕ) ≠ 866))]
  rw [if_neg (by rw [hg]; omega : ¬ (866 - 4 - guardT ≤ guardT))]
  rw [hscan]
  norm_num [frameTime]

/-- Claim C2 (corrected, amended part). With a non-empty code search range and
an initial index at most `guard_head` (detect initializes to `guard_head`,
trim to 0): if no scanned window has positive mean, the strict `>` never
fires and the scan returns the untouched initial state `(init, 0)`; if some
scanned window has positive mean, the chosen index is the earliest strict
maximizer among the scanned candidates.  Determinism holds on every path
because the scorer is a pure function of the series and configuration. -/
theorem C2_tiebreak_amended (xs : List ℚ) (w gHead gTail init : ℕ)
    (hinit : init ≤ gHead) (hne : gHead < xs.length - w - gTail) :
    ((∀ i, gHead ≤ i → i < xs.length - w - gTail → sliceMean xs i w ≤ 0) →
        searchScan xs w gHead (xs.length - w - gTail) init = (init, 0)) ∧
      (∀ j, gHead ≤ j → j < xs.length - w - gTail → 0 < sliceMean xs j w →
        (gHead ≤ (searchScan xs w gHead (xs.length - w - gTail) init).1 ∧
            (searchScan xs w gHead (xs.length - w - gTail) init).1
              < xs.length - w - gTail) ∧
          sliceMean xs (searchScan xs w gHead (xs.length - w - gTail) init).1 w
            = (searchScan xs w gHead (xs.length - w - gTail) init).2 ∧
          (∀ i, gHead ≤ i → i < xs.length - w - gTail →
            sliceMean xs i w
              ≤ (searchScan xs w gHead (xs.length - w - gTail) init).2) ∧
          (∀ i, gHead ≤ i → i < (searchScan xs w gHead (xs.length - w - gTail) init).1 →
            sliceMean xs i w
              < (searchScan xs w gHead (xs.length - w - gTail) init).2)) := by
  constructor
  · intro hall
    unfold searchScan
    refine foldl_scanStep_nochange xs w _ (init, 0) fun i hi => ?_
    have := List.mem_range'_1.mp hi
    exact hall i this.1 (by omega)
  · intro j hj1 hj2 hj3
    have hdom : ∀ i, gHead ≤ i → i < xs.length - w - gTail →
        sliceMean xs i w ≤ (searchScan xs w gHead (xs.length - w - gTail) init).2 := by
      intro i hi1 hi2
      unfold searchScan
      exact foldl_scanStep_dominates xs w _ (init, 0) i
        (List.mem_range'_1.mpr ⟨hi1, by omega⟩)
    have hmem : (searchScan xs w gHead (xs.length - w - gTail) init).1
          ∈ List.range' gHead (xs.length - w - gTail - gHead) ∧
        sliceMean xs (searchScan xs w gHead (xs.length - w - gTail) init).1 w
          = (searchScan xs w gHead (xs.length - w - gTail) init).2 := by
      rcases foldl_scanStep_origin xs w
          (List.range' gHead (xs.length - w - gTail - gHead)) (init, 0) with h | h
      · exfalso
        have h2 := hdom j hj1 hj2
        unfold searchScan at h2
        rw [h] at h2
        exact absurd (lt_of_lt_of_le hj3 h2) (lt_irrefl 0)
      · exact h
    have hbounds := List.mem_range'_1.mp hmem.1
    refine ⟨⟨hbounds.1, by omega⟩, hmem.2, hdom, ?_⟩
    intro i hi1 hi2
    have hearly := foldl_scanStep_earliest xs w gHead (init, 0)
      (fun k hk1 hk2 => by omega) (xs.length - w - gTail - gHead) i hi1 (by omega) hi2
    exact hearly

/-- Witness for C2's amended statement on the series `0,2,1`, one-frame
window, no guard bands: the positive window at index 1 is the unique
maximizer and the scan selects it. -/
theorem C2_tiebreak_amended_witness :
    (0 ≤ 0 ∧ 0 < [(0 : ℚ), 2, 1].length - 1 - 0) ∧
      (((∀ i, 0 ≤ i → i < [(0 : ℚ), 2, 1].length - 1 - 0 →
            sliceMean [(0 : ℚ), 2, 1] i 1 ≤ 0) →
          searchScan [(0 : ℚ), 2, 1] 1 0 ([(0 : ℚ), 2, 1].length - 1 - 0) 0 = (0, 0)) ∧
        (∀ j, 0 ≤ j → j < [(0 : ℚ), 2, 1].length - 1 - 0 →
          0 < sliceMean [(0 : ℚ), 2, 1] j 1 →
          (0 ≤ (searchScan [(0 : ℚ), 2, 1] 1 0 ([(0 : ℚ), 2, 1].length - 1 - 0) 0).1 ∧
              (searchScan [(0 : ℚ), 2, 1] 1 0 ([(0 : ℚ), 2, 1].length - 1 - 0) 0).1
                < [(0 : ℚ), 2, 1].length - 1 - 0) ∧
            sliceMean [(0 : ℚ), 2, 1]
                (searchScan [(0 : ℚ), 2, 1] 1 0 ([(0 : ℚ), 2, 1].length - 1 - 0) 0).1 1
              = (searchScan [(0 : ℚ), 2, 1] 1 0 ([(0 : ℚ), 2, 1].length - 1 - 0) 0).2 ∧
            (∀ i, 0 ≤ i → i < [(0 : ℚ), 2, 1].length - 1 - 0 →
              sliceMean [(0 : ℚ), 2, 1] i 1
                ≤ (searchScan [(0 : ℚ), 2, 1] 1 0 ([(0 : ℚ), 2, 1].length - 1 - 0) 0).2) ∧
            (∀ i, 0 ≤ i →
              i < (searchScan [(0 : ℚ), 2, 1] 1 0 ([(0 : ℚ), 2, 1].length - 1 - 0) 0).1 →
              sliceMean [(0 : ℚ), 2, 1] i 1
                < (searchScan [(0 : ℚ), 2, 1] 1 0 ([(0 : ℚ), 2, 1].length - 1 - 0) 0).2))) :=
  ⟨⟨le_refl 0, by decide⟩, C2_tiebreak_amended [(0 : ℚ), 2, 1] 1 0 0 0 (by decide) (by decide)⟩

/-- Claim C4 counterexample. The claim says that for every series with
`max > min` each output is `(v - min) / (max - min)`, with output range
exactly `[0, 1]`.  Both variants refute it: the trim variant divides by
`max - min + 1e-10`, so for the series `[0, 1]` the largest output is
`10^10 / (10^10 + 1) < 1`; the detect variant maps the series
`[0, 10^-11]` — which has `max > min`, but `max - min` under the `1e-10`
epsilon — to all zeros instead of `[0, 1]`. -/
theorem C4_normalizer_counterexample :
    normalizeTrim [0, 1] = [0, 10 ^ 10 / (10 ^ 10 + 1)] ∧
      (10 : ℚ) ^ 10 / (10 ^ 10 + 1) ≠ 1 ∧
      normalize [0, 1 / 10 ^ 11] = [0, 0] ∧ (0 : ℚ) < 1 / 10 ^ 11 := by
  refine ⟨by decide, by norm_num, by decide, by norm_num⟩

/-- Claim C4 (corrected). Detect variant: a series whose spread `max - min` is
below the `1e-10` epsilon (including every constant series, but also
non-constant ones) maps to the all-zero series of the same length; when the
spread is at least the epsilon, each output is exactly
`(v - min) / (max - min)`, all outputs lie in `[0, 1]`, and both 0 and 1 are
attained.  Trim variant: outputs always lie in `[0, 1)` — the maximum falls
strictly short of 1 because of the `+ 1e-10` in the denominator — and a
constant series maps to all zeros. -/
theorem C4_normalizer_amended (xs : List ℚ) :
    (listMax xs - listMin xs < eps → normalize xs = List.replicate xs.length 0) ∧
      (eps ≤ listMax xs - listMin xs →
        (∀ v ∈ normalize xs, 0 ≤ v ∧ v ≤ 1) ∧
          (0 : ℚ) ∈ normalize xs ∧ (1 : ℚ) ∈ normalize xs) ∧
      (∀ v ∈ normalizeTrim xs, 0 ≤ v ∧ v < 1) ∧
      (∀ c : ℚ, (∀ v ∈ xs, v = c) →
        normalizeTrim xs = List.replicate xs.length 0) := by
  refine ⟨?_, ?_, normalizeTrim_mem_bounds xs, ?_⟩
  · intro h
    rw [normalize]
    rw [if_pos h]
    exact List.eq_replicate_iff.mpr ⟨by simp, by simp⟩
  · intro h
    have hne : xs ≠ [] := by
      rintro rfl
      rw [listMax, listMin] at h
      norm_num [eps] at h
    have hpos : 0 < listMax xs - listMin xs :=
      lt_of_lt_of_le (by norm_num [eps]) h
    refine ⟨normalize_mem_bounds xs, ?_, ?_⟩
    · rw [normalize, if_neg (not_lt.mpr h)]
      exact List.mem_map.mpr ⟨listMin xs, listMin_mem xs hne, by rw [sub_self, zero_div]⟩
    · rw [normalize, if_neg (not_lt.mpr h)]
      exact List.mem_map.mpr ⟨listMax xs, listMax_mem xs hne, div_self hpos.ne'⟩
  · intro c hc
    have hxs : xs = List.replicate xs.length c := List.eq_replicate_iff.mpr ⟨rfl, hc⟩
    calc normalizeTrim xs = normalizeTrim (List.replicate xs.length c) := by
          rw [← hxs]
      _ = List.replicate xs.length 0 := normalizeTrim_replicate xs.length c

/-- Witness for C4's amended statement on the series `[0, 1]` (detect branch:
epsilon threshold met, range exactly attained). -/
theorem C4_normalizer_amended_witness :
    (eps ≤ listMax [(0 : ℚ), 1] - listMin [(0 : ℚ), 1]) ∧
      ((∀ v ∈ normalize [(0 : ℚ), 1], 0 ≤ v ∧ v ≤ 1) ∧
        (0 : ℚ) ∈ normalize [(0 : ℚ), 1] ∧ (1 : ℚ) ∈ normalize [(0 : ℚ), 1]) :=
  ⟨by decide, (C4_normalizer_amended [(0 : ℚ), 1]).2.1 (by decide)⟩

/-- Partial sums of a list as a `Finset.range` sum of `getD` values (indices
past the end contribute the default 0). -/
theorem sum_take_eq_sum_range :
    ∀ (l : List ℚ) (c : ℕ), (l.take c).sum = ∑ j ∈ Finset.range c, l.getD j 0 := by
  intro l
  induction l with
  | nil => intro c; simp
  | cons x t ih =>
    intro c
    cases c with
    | zero => simp
    | succ k =>
      rw [List.take_succ_cons, List.sum_cons, ih k, Finset.sum_range_succ']
      simp [add_comm]

theorem getD_drop (l : List ℚ) (i j : ℕ) : (l.drop i).getD j 0 = l.getD (i + j) 0 := by
  rw [List.getD_eq_getElem?_getD, List.getD_eq_getElem?_getD, List.getElem?_drop]

/-- The guarded window sum of `smooth10` as a drop/take slice sum. -/
theorem sum_ite_window (xs : List ℚ) (lo hi : ℕ) :
    (∑ j ∈ Finset.range xs.length, if lo ≤ j ∧ j < hi then xs.getD j 0 else 0)
      = ((xs.drop lo).take (hi - lo)).sum := by
  have h1 : (∑ j ∈ Finset.range xs.length, if lo ≤ j ∧ j < hi then xs.getD j 0 else 0)
      = ∑ j ∈ (Finset.range xs.length).filter (fun j => lo ≤ j ∧ j < hi),
          xs.getD j 0 :=
    (Finset.sum_filter _ _).symm
  have h2 : (Finset.range xs.length).filter (fun j => lo ≤ j ∧ j < hi)
      = (Finset.Ico lo hi).filter (fun j => j < xs.length) := by
    ext j
    simp only [Finset.mem_filter, Finset.mem_range, Finset.mem_Ico]
    omega
  have h3 : ∑ j ∈ (Finset.Ico lo hi).filter (fun j => ¬ j < xs.length),
      xs.getD j 0 = 0 := by
    refine Finset.sum_eq_zero fun j hj => ?_
    exact List.getD_eq_default _ _ (le_of_not_lt (Finset.mem_filter.mp hj).2)
  have h4 : ∑ j ∈ Finset.Ico lo hi, xs.getD j 0
      = ∑ j ∈ (Finset.Ico lo hi).filter (fun j => j < xs.length), xs.getD j 0 := by
    rw [← Finset.sum_filter_add_sum_filter_not (Finset.Ico lo hi)
      (fun j => j < xs.length), h3, add_zero]
  rw [h1, h2, ← h4, Finset.sum_Ico_eq_sum_range, sum_take_eq_sum_range]
  exact Finset.sum_congr rfl fun j _ => (getD_drop xs lo j).symm

theorem frameTime_nonneg (i : ℕ) : 0 ≤ frameTime i := by
  unfold frameTime sr hop
  positivity

theorem pyRound_nonneg (q : ℚ) (hq : 0 ≤ q) : 0 ≤ pyRound q := by
  have hfe : Rat.floor q = ⌊q⌋ := by
    rw [Rat.floor_def', Rat.floor_def]
  have hf : (0 : ℤ) ≤ Rat.floor q := by
    rw [hfe]
    exact Int.floor_nonneg.mpr hq
  simp only [pyRound]
  split_ifs <;> omega

theorem trimFallback_invariants (fb : Option ℚ) (t : ℚ) :
    0 ≤ (trimFallback fb t).1 ∧ 0 ≤ (trimFallback fb t).2 ∧
      (trimFallback fb t).2 ≤ 1 := by
  cases fb with
  | none => norm_num [trimFallback]
  | some d2 =>
    simp only [trimFallback]
    exact ⟨le_max_left 0 _, by norm_num, by norm_num⟩

/-- Claim C8 (confirmed). On every path of both variants — normal scan result
and all fallback levels — the returned start time is nonnegative and the
returned confidence lies in `[0, 1]`; in particular the ratio-based detect
confidence is nonnegative and both confidences are clamped at 1. -/
theorem C8_result_invariants (inp : Except Unit LoadedDetect)
    (inp2 : Except Unit LoadedTrim) (fb : Option ℚ) (t : ℚ) :
    (0 ≤ (detect_best_start_time inp t).1 ∧
        0 ≤ (detect_best_start_time inp t).2 ∧
        (detect_best_start_time inp t).2 ≤ 1) ∧
      (0 ≤ (find_chorus_start inp2 fb t).1 ∧
        0 ≤ (find_chorus_start inp2 fb t).2 ∧
        (find_chorus_start inp2 fb t).2 ≤ 1) := by
  constructor
  · cases inp with
    | error e => norm_num [detect_best_start_time]
    | ok a =>
      rcases a with ⟨d, feats⟩
      by_cases hd : d ≤ t
      · norm_num [detect_best_start_time, hd]
      · cases feats with
        | error e => norm_num [detect_best_start_time, hd]
        | ok trip =>
          rcases trip with ⟨rms, sc, onset⟩
          by_cases hm : min rms.length (min sc.length onset.length) = 0
          · norm_num [detect_best_start_time, hd, hm]
          · simp only [detect_best_start_time, hd, if_false, hm]
            set m := min rms.length (min sc.length onset.length) with hmdef
            set cs := smooth10 (combine3 (normalize (rms.take m))
              (normalize (sc.take m)) (normalize (onset.take m))) with hcsdef
            have hcsn : ∀ v ∈ cs, 0 ≤ v := by
              rw [hcsdef]
              refine smooth10_nonneg _ ?_
              refine combine3_nonneg _ _ _ ?_ ?_ ?_ <;>
                exact fun v hv => (normalize_mem_bounds _ v hv).1
            by_cases hend : cs.length - windowFrames t ≤ guardD
            · rw [if_pos hend]
              exact ⟨le_max_left 0 _, by norm_num, by norm_num⟩
            · rw [if_neg hend]
              set best := searchScan cs (windowFrames t) guardD
                (cs.length - windowFrames t) guardD with hbestdef
              have hb2 : 0 ≤ best.2 := by
                rw [hbestdef]
                exact searchScan_snd_nonneg ..
              have hst : 0 ≤ (if best.1 < cs.length then frameTime best.1 else 0) := by
                split_ifs
                · exact frameTime_nonneg _
                · exact le_refl 0
              have hden : 0 < listMean cs + 1 / 100 := by
                have := listMean_nonneg cs hcsn
                linarith
              refine ⟨?_, ?_, ?_⟩
              · exact Int.cast_nonneg.mpr (pyRound_nonneg _ hst)
              · exact le_min (by norm_num) (div_nonneg hb2 hden.le)
              · exact min_le_left 1 _
  · cases inp2 with
    | error e => exact trimFallback_invariants fb t
    | ok b =>
      rcases b with ⟨d, feats⟩
      by_cases hd : d ≤ t
      · norm_num [find_chorus_start, hd]
      · cases feats with
        | error e =>
          simpa only [find_chorus_start, hd, if_false] using
            trimFallback_invariants fb t
        | ok pair =>
          rcases pair with ⟨rms2, sc2⟩
          by_cases hg : rms2.length = 0 ∨ rms2.length ≠ sc2.length
          · simpa only [find_chorus_start, hd, if_false, if_pos hg] using
              trimFallback_invariants fb t
          · simp only [find_chorus_start, hd, if_false, hg]
            set combined := combine2 (normalizeTrim rms2) (normalizeTrim sc2)
              with hcombdef
            by_cases hend : combined.length - windowFrames t - guardT ≤ guardT
            · rw [if_pos hend]
              exact ⟨le_max_left 0 _, by norm_num, by norm_num⟩
            · rw [if_neg hend]
              set best := searchScan combined (windowFrames t) guardT
                (combined.length - windowFrames t - guardT) 0 with hbestdef
              have hb2 : 0 ≤ best.2 := by
                rw [hbestdef]
                exact searchScan_snd_nonneg ..
              refine ⟨?_, ?_, ?_⟩
              · split_ifs
                · exact frameTime_nonneg _
                · exact le_refl 0
              · exact le_min (by norm_num) (mul_nonneg hb2 (by norm_num))
              · exact min_le_left 1 _

/-- Claim C9 counterexample. The claim says edge frames are averaged over the
available shorter window (partial overlap).  Take the 12-frame series
`1,0,…,0` — longer than the 10-frame kernel, so input and output lengths
agree.  The first output frame overlaps only the five entries `xs[0..4]`:
averaging over that shorter window gives `1/5`, but
`np.convolve(..., 'same')` zero-pads and divides by the full window length
10, giving `1/10`. -/
theorem C9_smoother_counterexample :
    (smooth10 [(1 : ℚ), 0, 0, 0, 0, 0, 0, 0, 0, 0, 0, 0]).getD 0 0 = 1 / 10 ∧
      (smoothSpecEdges [(1 : ℚ), 0, 0, 0, 0, 0, 0, 0, 0, 0, 0, 0]).getD 0 0 = 1 / 5 ∧
      (1 : ℚ) / 10 ≠ 1 / 5 := by
  refine ⟨by decide, by decide, by norm_num⟩

/-- Claim C9 (corrected). The smoother is numpy `'same'` convolution with the
10-frame kernel: the output length is `max(10, N)` — equal to the input
length whenever the input has at least 10 frames, which always holds when
the detect scan runs — and on such inputs every output frame, edge frames
included, is the zero-padded centered window sum over `[i-5, i+4]` divided
by the full window length 10, not an average over the shorter available
window. -/
theorem C9_smoother_amended (xs : List ℚ) :
    (smooth10 xs).length = max 10 xs.length ∧
      ∀ i, 10 ≤ xs.length → i < xs.length →
        (smooth10 xs).getD i 0
          = ((xs.drop (i - 5)).take (i + 5 - (i - 5))).sum / 10 := by
  refine ⟨smooth10_length xs, fun i h10 hi => ?_⟩
  have hmin : min 10 xs.length = 10 := min_eq_left h10
  have hget : (smooth10 xs).getD i 0
      = (∑ j ∈ Finset.range xs.length,
          if j ≤ i + (min 10 xs.length - 1) / 2 ∧
              i + (min 10 xs.length - 1) / 2 ≤ j + 9
            then xs.getD j 0 else 0) / 10 := by
    unfold smooth10
    rw [List.getD_eq_getElem _ _ (by simp; omega)]
    simp
  rw [hget, hmin]
  congr 1
  calc (∑ j ∈ Finset.range xs.length,
        if j ≤ i + (10 - 1) / 2 ∧ i + (10 - 1) / 2 ≤ j + 9 then xs.getD j 0 else 0)
      = ∑ j ∈ Finset.range xs.length,
          if i - 5 ≤ j ∧ j < i + 5 then xs.getD j 0 else 0 := by
        refine Finset.sum_congr rfl fun j _ => ?_
        exact if_congr (by omega) rfl rfl
    _ = ((xs.drop (i - 5)).take ((i + 5) - (i - 5))).sum :=
        sum_ite_window xs (i - 5) (i + 5)

/-- Witness for C9's amended statement on the 10-frame series `1,2,0,…,0` at
the edge frame 0 (zero-padded window sum `1 + 2`, divided by 10). -/
theorem C9_smoother_amended_witness :
    (10 ≤ [(1 : ℚ), 2, 0, 0, 0, 0, 0, 0, 0, 0].length ∧
        0 < [(1 : ℚ), 2, 0, 0, 0, 0, 0, 0, 0, 0].length) ∧
      ((smooth10 [(1 : ℚ), 2, 0, 0, 0, 0, 0, 0, 0, 0]).length
          = max 10 [(1 : ℚ), 2, 0, 0, 0, 0, 0, 0, 0, 0].length ∧
        (smooth10 [(1 : ℚ), 2, 0, 0, 0, 0, 0, 0, 0, 0]).getD 0 0
          = (([(1 : ℚ), 2, 0, 0, 0, 0, 0, 0, 0, 0].drop (0 - 5)).take
              (0 + 5 - (0 - 5))).sum / 10) :=
  ⟨⟨by decide, by decide⟩,
    (C9_smoother_amended [(1 : ℚ), 2, 0, 0, 0, 0, 0, 0, 0, 0]).1,
    (C9_smoother_amended [(1 : ℚ), 2, 0, 0, 0, 0, 0, 0, 0, 0]).2 0
      (by decide) (by decide)⟩

/-- Claim C10 (confirmed). Whenever the code's search range is non-empty (so the
window search actually runs), the selected best start frame is strictly below
the series length — which is exactly the length of the `times` array — for
both configurations (detect: `g_tail = 0`, `init = guard_head`; trim:
`init = 0 ≤ guard_head`); hence the guarded `else 0` branch of the
frame-to-time lookup is unreachable. -/
theorem C10_lookup_bounds (xs : List ℚ) (w gHead gTail init : ℕ)
    (hinit : init ≤ gHead) (hrun : gHead < xs.length - w - gTail) :
    (searchScan xs w gHead (xs.length - w - gTail) init).1 < xs.length ∧
      ((if (searchScan xs w gHead (xs.length - w - gTail) init).1 < xs.length
          then frameTime (searchScan xs w gHead (xs.length - w - gTail) init).1
          else 0)
        = frameTime (searchScan xs w gHead (xs.length - w - gTail) init).1) := by
  have hlt : (searchScan xs w gHead (xs.length - w - gTail) init).1 < xs.length := by
    unfold searchScan
    rcases foldl_scanStep_origin xs w
        (List.range' gHead (xs.length - w - gTail - gHead)) (init, 0) with h | ⟨h1, _⟩
    · rw [h]
      omega
    · have := List.mem_range'_1.mp h1
      omega
  exact ⟨hlt, if_pos hlt⟩

/-- Witness for C10 on the series `1,2,3,4`, window 2, guard head 1,
initial index 0. -/
theorem C10_lookup_bounds_witness :
    (0 ≤ 1 ∧ 1 < [(1 : ℚ), 2, 3, 4].length - 2 - 0) ∧
      ((searchScan [(1 : ℚ), 2, 3, 4] 2 1 ([(1 : ℚ), 2, 3, 4].length - 2 - 0) 0).1
          < [(1 : ℚ), 2, 3, 4].length ∧
        ((if (searchScan [(1 : ℚ), 2, 3, 4] 2 1
                ([(1 : ℚ), 2, 3, 4].length - 2 - 0) 0).1 < [(1 : ℚ), 2, 3, 4].length
            then frameTime (searchScan [(1 : ℚ), 2, 3, 4] 2 1
                ([(1 : ℚ), 2, 3, 4].length - 2 - 0) 0).1
            else 0)
          = frameTime (searchScan [(1 : ℚ), 2, 3, 4] 2 1
              ([(1 : ℚ), 2, 3, 4].length - 2 - 0) 0).1)) :=
  ⟨⟨by decide, by decide⟩,
    C10_lookup_bounds [(1 : ℚ), 2, 3, 4] 2 1 0 0 (by decide) (by decide)⟩

/-- Claim C7 (confirmed). Empty-search-range fallback: when the duration exceeds
the target but the guard bands plus the window consume the (aligned) series —
the code's `end_frame <= start_frame` test, i.e. series length at most
`window + guard` for detect and `window + 2 * guard` for trim — the result is
`(max 0 ((duration - target) / k), 0.5)` with `k = 4` in the detect variant
and `k = 3` in the trim variant. -/
theorem C7_empty_range_fallback (d t : ℚ) (rms sc onset rms2 sc2 : List ℚ)
    (fb : Option ℚ) (hdt : t < d)
    (hm : 0 < min rms.length (min sc.length onset.length))
    (hend : min rms.length (min sc.length onset.length) ≤ windowFrames t + guardD)
    (hm2 : 0 < rms2.length) (hlen2 : rms2.length = sc2.length)
    (hend2 : rms2.length ≤ windowFrames t + 2 * guardT) :
    detect_best_start_time (.ok ⟨d, .ok (rms, sc, onset)⟩) t
        = (max 0 ((d - t) / 4), 1 / 2) ∧
      find_chorus_start (.ok ⟨d, .ok (rms2, sc2)⟩) fb t
        = (max 0 ((d - t) / 3), 1 / 2) := by
  have hdt' : ¬ d ≤ t := not_le.mpr hdt
  constructor
  · have hcs :
        (smooth10 (combine3
            (normalize (rms.take (min rms.length (min sc.length onset.length))))
            (normalize (sc.take (min rms.length (min sc.length onset.length))))
            (normalize (onset.take (min rms.length (min sc.length onset.length)))))).length
          = max 10 (min rms.length (min sc.length onset.length)) := by
      rw [smooth10_length, combine3_length, normalize_length, normalize_length,
        normalize_length, List.length_take, List.length_take, List.length_take]
      omega
    have hgD : guardD = 215 := by decide
    simp only [detect_best_start_time, hdt', if_false]
    rw [if_neg hm.ne']
    rw [if_pos (by rw [hcs]; omega)]
  · have hcs :
        (combine2 (normalizeTrim rms2) (normalizeTrim sc2)).length = rms2.length := by
      rw [combine2_length, normalizeTrim_length, normalizeTrim_length]
      omega
    simp only [find_chorus_start, hdt', if_false]
    rw [if_neg (by omega : ¬ (rms2.length = 0 ∨ rms2.length ≠ sc2.length))]
    rw [if_pos (by rw [hcs]; omega)]

/-- Witness for C7: duration 1s, target 0.5s (window 21 frames), length-1
feature series; both branches produce the proportional fallback. -/
theorem C7_empty_range_fallback_witness :
    ((1 : ℚ) / 2 < 1) ∧
      (detect_best_start_time (.ok ⟨1, .ok ([1], [1], [1])⟩) (1 / 2)
          = (max 0 ((1 - 1 / 2) / 4), 1 / 2) ∧
        find_chorus_start (.ok ⟨1, .ok ([1], [1])⟩) none (1 / 2)
          = (max 0 ((1 - 1 / 2) / 3), 1 / 2)) :=
  ⟨by norm_num,
    C7_empty_range_fallback 1 (1 / 2) [1] [1] [1] [1] [1] none (by norm_num)
      (by decide) (by decide) (by decide) (by decide) (by decide)⟩

/-- Claim C6 counterexample. The claim says an extraction failure with the
duration still obtainable yields a proportional estimate in both variants
(`(25.0, 0.3)` with divisor 3, or `(28.75, 0.3)` with divisor 4).  The detect
variant's handler ignores the duration entirely: at duration 120 and target
45 it returns the absolute fallback `(30.0, 0.3)`, which is neither `25`
nor `28.75`. -/
theorem C6_extraction_failure_counterexample :
    detect_best_start_time (.ok ⟨120, .error ()⟩) 45 = (30, 3 / 10) ∧
      (30 : ℚ) ≠ 25 ∧ (30 : ℚ) ≠ 115 / 4 := by
  refine ⟨?_, by norm_num, by norm_num⟩
  simp [detect_best_start_time, show ¬ (120 : ℚ) ≤ 45 by norm_num]

/-- Claim C6 (corrected). On extraction failure the trim variant returns the
proportional estimate `(max 0 ((d - target) / 3), 0.3)` when the fallback
decode still yields a duration `d`, and `(30.0, 0.1)` when it does not; the
detect variant always returns the absolute fallback `(30.0, 0.3)` — it never
uses a proportional estimate.  At duration 120 and target 45 this gives
`(25.0, 0.3)` for trim and `(30.0, 0.3)` for detect. -/
theorem C6_extraction_failure_amended (d d2 t : ℚ) (hdt : t < d) :
    detect_best_start_time (.ok ⟨d, .error ()⟩) t = (30, 3 / 10) ∧
      detect_best_start_time (.error ()) t = (30, 3 / 10) ∧
      find_chorus_start (.ok ⟨d, .error ()⟩) (some d2) t
        = (max 0 ((d2 - t) / 3), 3 / 10) ∧
      find_chorus_start (.error ()) (some d2) t = (max 0 ((d2 - t) / 3), 3 / 10) ∧
      find_chorus_start (.ok ⟨d, .error ()⟩) none t = (30, 1 / 10) ∧
      find_chorus_start (.error ()) none t = (30, 1 / 10) := by
  have hdt' : ¬ d ≤ t := not_le.mpr hdt
  refine ⟨?_, rfl, ?_, rfl, ?_, rfl⟩
  · simp [detect_best_start_time, hdt']
  · simp [find_chorus_start, hdt', trimFallback]
  · simp [find_chorus_start, hdt', trimFallback]

/-- Witness for C6's amended statement at the spec's Scenario C numbers
(duration 120, target 45, fallback duration 120): the trim proportional
fallback is `((120 - 45) / 3, 0.3) = (25, 0.3)`; detect stays at
`(30, 0.3)`. -/
theorem C6_extraction_failure_amended_witness :
    ((45 : ℚ) < 120) ∧
      (detect_best_start_time (.ok ⟨120, .error ()⟩) 45 = (30, 3 / 10) ∧
        detect_best_start_time (.error ()) 45 = (30, 3 / 10) ∧
        find_chorus_start (.ok ⟨120, .error ()⟩) (some 120) 45
          = (max 0 ((120 - 45) / 3), 3 / 10) ∧
        find_chorus_start (.error ()) (some 120) 45
          = (max 0 ((120 - 45) / 3), 3 / 10) ∧
        find_chorus_start (.ok ⟨120, .error ()⟩) none 45 = (30, 1 / 10) ∧
        find_chorus_start (.error ()) none 45 = (30, 1 / 10)) ∧
      max (0 : ℚ) ((120 - 45) / 3) = 25 :=
  ⟨by norm_num, C6_extraction_failure_amended 120 120 45 (by norm_num),
    by norm_num⟩

end MusicBingo
